import Mathlib

/-!
Shallow embedding of the collab-playlist aggregation code (`src/app.rs`).

The two translated components are:

* the Identity Resolver (the `user_names` block of the `Playlist` component,
  `app.rs` lines 111-131), and
* the Aggregation Engine (the `data` closure of the `Playlist` component,
  `app.rs` lines 134-223).

Modelling decisions:

* `chrono::TimeDelta` durations are carried exactly; track durations and
  duration sums are integers of milliseconds (`num_milliseconds` is exact),
  timestamps are integers of seconds.  Rust's `i64 / i64` truncates toward
  zero, which is `Int.tdiv` here.
* `f64` values are modelled exactly: an `F64` is either a rational number or
  one of the IEEE non-finite values NaN / +inf / -inf produced by division by
  zero.  Division, ordering and `clamp` follow the IEEE behaviour on these
  values (`0/0 = NaN`, comparisons with NaN are false, `clamp` propagates
  NaN); rational results are kept exact rather than rounded.
* Rust's `HashMap<K, V>` iteration order is unspecified.  The engine is
  therefore split into `buildPlaylistInfo`, which takes the grouped entries
  in an explicit order, and `dataFn`, which supplies the canonical
  first-insertion order `groupTracks`; any actual run of the program is
  `buildPlaylistInfo` applied to some permutation of `groupTracks`.
* `sort_unstable_by` is modelled by `List.insertionSort`: a deterministic
  comparison sort; all properties proved below are insensitive to the
  tie-breaking strategy except where the order argument is explicit.
* `RandomColor::new().seed(s).to_rgb_array()` is a fixed pure function of the
  seed string; it is an abstract parameter `colorOf` of the engine.
-/

namespace CollabPlaylist

/-- Exact-real model of an `f64`: a rational number or one of the IEEE
non-finite values. -/
inductive F64 where
  | nan : F64
  | inf : F64
  | ninf : F64
  | val : ℚ → F64
deriving DecidableEq

/-- IEEE division on the `F64` model: division by zero gives NaN (for a zero
numerator) or a signed infinity; finite results are exact rationals. -/
def F64.div : F64 → F64 → F64
  | .nan, _ => .nan
  | _, .nan => .nan
  | .val a, .val b =>
      if b = 0 then (if a = 0 then .nan else if 0 < a then .inf else .ninf)
      else .val (a / b)
  | .val _, .inf => .val 0
  | .val _, .ninf => .val 0
  | .inf, .val b => if 0 ≤ b then .inf else .ninf
  | .ninf, .val b => if 0 ≤ b then .ninf else .inf
  | .inf, _ => .nan
  | .ninf, _ => .nan

/-- IEEE strict less-than on the `F64` model; every comparison with NaN is
false. -/
def F64.blt : F64 → F64 → Bool
  | .nan, _ => false
  | _, .nan => false
  | .ninf, .ninf => false
  | .ninf, _ => true
  | _, .ninf => false
  | .inf, _ => false
  | .val _, .inf => true
  | .val a, .val b => decide (a < b)

/-- Rust `f64::clamp` on the `F64` model (finite bounds): NaN stays NaN,
infinities collapse to the nearest bound. -/
def F64.clamp : F64 → F64 → F64 → F64
  | .val a, .val lo, .val hi => .val (max lo (min hi a))
  | .inf, _, .val hi => .val hi
  | .ninf, .val lo, _ => .val lo
  | .nan, _, _ => .nan
  | x, _, _ => x

/-- `rgb::RGB8`; concrete channel values never matter to the engine. -/
abbrev RGB8 := ℕ × ℕ × ℕ

/-- `rspotify::model::FullTrack`, restricted to the fields the engine reads:
`name` and `duration` (milliseconds). -/
structure FullTrack where
  name : String
  duration : ℤ
deriving DecidableEq

/-- `rspotify::model::PlayableItem`: a playlist entry is a track or an
episode; the engine only processes tracks. -/
inductive PlayableItem where
  | track : FullTrack → PlayableItem
  | episode : PlayableItem
deriving DecidableEq

/-- A `PlaylistItem` from `playlist.tracks.items`: optional add timestamp
(seconds), optional adder id (`added_by.map(|u| u.id)`), optional playable
item (`None` models a removed/local placeholder). -/
structure PlaylistItem where
  added_at : Option ℤ
  added_by : Option String
  track : Option PlayableItem
deriving DecidableEq

/-- The playlist snapshot: name and ordered items. -/
structure Playlist where
  name : String
  items : List PlaylistItem
deriving DecidableEq

/-- Output per-track record (`TrackInfo` in `app.rs`). -/
structure TrackInfo where
  name : String
  duration : ℤ
  relative_size : F64
  color : RGB8
  age : F64
deriving DecidableEq

/-- Output per-contributor record (`UserInfo` in `app.rs`). -/
structure UserInfo where
  name : String
  relative_size : F64
  total_duration : ℤ
  amount_of_tracks : ℕ
  color : RGB8
deriving DecidableEq

/-- The engine's final output (`PlaylistInfo` in `app.rs`). -/
structure PlaylistInfo where
  name : String
  total_duration : ℤ
  tracks : List TrackInfo
  users : List UserInfo
deriving DecidableEq

/-- One grouped value: `(item.added_at, track)` as pushed into
`user_id_to_track`. -/
abbrev Entry := Option ℤ × FullTrack

/-- One bucket of `user_id_to_track`: key `added_by.map(|u| u.id)` with its
entries in playlist order. -/
abbrev Group := Option String × List Entry

/-- First loop of the `data` closure: `total_duration += track.duration` over
the items that are `Some(PlayableItem::Track(..))`. -/
def totalDuration (items : List PlaylistItem) : ℤ :=
  items.foldl
    (fun acc it =>
      match it.track with
      | some (.track t) => acc + t.duration
      | _ => acc)
    0

/-- `user_id_to_track.entry(k).or_insert_with(Vec::new).push(e)` on an
association list: append to the existing bucket, or add a new bucket at the
end. -/
def insertEntry (gs : List Group) (k : Option String) (e : Entry) : List Group :=
  match gs with
  | [] => [(k, [e])]
  | g :: rest => if g.1 = k then (g.1, g.2 ++ [e]) :: rest else g :: insertEntry rest k e

/-- One step of the grouping loop: skip non-track items, push track items
into the bucket of their `added_by` id. -/
def groupStep (gs : List Group) (it : PlaylistItem) : List Group :=
  match it.track with
  | some (.track t) => insertEntry gs it.added_by (it.added_at, t)
  | _ => gs

/-- The contents of `user_id_to_track` in first-insertion order. -/
def groupTracks (items : List PlaylistItem) : List Group :=
  items.foldl groupStep []

/-- `now.signed_duration_since(added_at.unwrap_or(now)).num_days()`:
whole days, truncated toward zero. -/
def ageDays (now : ℤ) (added_at : Option ℤ) : ℤ :=
  Int.tdiv (now - added_at.getD now) 86400

/-- `(age.num_days() as f64 / 200.0).clamp(0.0, 1.0)`. -/
def ageF64 (now : ℤ) (added_at : Option ℤ) : F64 :=
  F64.clamp (F64.div (.val (ageDays now added_at)) (.val 200)) (.val 0) (.val 1)

/-- Construction of one `TrackInfo` from a grouped entry. -/
def mkTrackInfo (color : RGB8) (now total : ℤ) (e : Entry) : TrackInfo :=
  { name := e.2.name
    duration := e.2.duration
    relative_size := F64.div (.val e.2.duration) (.val total)
    color := color
    age := ageF64 now e.1 }

/-- The comparison used by `user_tracks.sort_unstable_by`. -/
def trackLE (a b : TrackInfo) : Prop := a.duration ≤ b.duration

instance : DecidableRel trackLE := fun a b =>
  inferInstanceAs (Decidable (a.duration ≤ b.duration))

instance : IsTotal TrackInfo trackLE := ⟨fun a b => le_total a.duration b.duration⟩

instance : IsTrans TrackInfo trackLE := ⟨fun _ _ _ h1 h2 => le_trans h1 h2⟩

/-- The body of the map over `user_id_to_track`: build one contributor's
sorted track list and `UserInfo` record. -/
def processGroup (names : String → Option String) (colorOf : String → RGB8)
    (now total : ℤ) (g : Group) : UserInfo × List TrackInfo :=
  let color := colorOf (g.1.getD "")
  let user_tracks := List.insertionSort trackLE (g.2.map (mkTrackInfo color now total))
  let user_name := (g.1.bind names).getD "Unknow"
  let user_total := (user_tracks.map TrackInfo.duration).sum
  ({ name := user_name
     relative_size := F64.div (.val user_total) (.val total)
     total_duration := user_total
     amount_of_tracks := user_tracks.length
     color := color }, user_tracks)

/-- The comparison used by `data.sort_unstable_by`. -/
def pairLE (a b : UserInfo × List TrackInfo) : Prop :=
  a.1.total_duration ≤ b.1.total_duration

instance : DecidableRel pairLE := fun a b =>
  inferInstanceAs (Decidable (a.1.total_duration ≤ b.1.total_duration))

instance : IsTotal (UserInfo × List TrackInfo) pairLE :=
  ⟨fun a b => le_total a.1.total_duration b.1.total_duration⟩

instance : IsTrans (UserInfo × List TrackInfo) pairLE :=
  ⟨fun _ _ _ h1 h2 => le_trans h1 h2⟩

/-- The `data` closure after grouping, parameterised by the order `gs` in
which the `HashMap` yields its buckets. -/
def buildPlaylistInfo (names : String → Option String) (colorOf : String → RGB8)
    (now : ℤ) (p : Playlist) (gs : List Group) : PlaylistInfo :=
  let total := totalDuration p.items
  let data := List.insertionSort pairLE (gs.map (processGroup names colorOf now total))
  { name := p.name
    total_duration := total
    tracks := (data.map Prod.snd).flatten
    users := data.map Prod.fst }

/-- The whole `data` closure at the canonical (first-insertion) bucket
order. -/
def dataFn (names : String → Option String) (colorOf : String → RGB8)
    (now : ℤ) (p : Playlist) : PlaylistInfo :=
  buildPlaylistInfo names colorOf now p (groupTracks p.items)

/-- A fetched user (`rspotify` public user): its id and optional display
name. -/
structure PublicUser where
  id : String
  display_name : Option String
deriving DecidableEq

/-- One lookup of the Identity Resolver (`app.rs` lines 119-127): a failed
`spotify.user(..)` call maps the id to the literal fallback string, a
successful one maps it to `display_name.unwrap_or_else(|| user.id)`. -/
def resolveName (lookup : String → Option PublicUser) (user_id : String) :
    String × String :=
  match lookup user_id with
  | none => (user_id, "Faild to get user")
  | some user => (user_id, user.display_name.getD user.id)

/-- The whole Identity Resolver: one lookup per distinct contributor id. -/
def resolveNames (lookup : String → Option PublicUser) (user_ids : List String) :
    List (String × String) :=
  user_ids.map (resolveName lookup)

/-- The staleness test used by the rendering code: `track.age > 0.99`
(the literal `0.99` is modelled by the exact rational `99 / 100`). -/
def isStale (t : TrackInfo) : Bool := F64.blt (.val (99 / 100)) t.age

/-- The age-factor formula as the spec words it, for comparison with the
code's `ageF64`: `age = now - added_at` (an absent `added_at` is treated as
age 0), `age_factor = clamp(age_in_days / 200, 0, 1)` with `age_in_days` the
whole days of the age. -/
def specAgeFactor (now : ℤ) (added_at : Option ℤ) : ℚ :=
  let age : ℤ := match added_at with | none => 0 | some t => now - t
  let age_in_days : ℤ := Int.tdiv age 86400
  max 0 (min 1 ((age_in_days : ℚ) / 200))

/-- The durations of the included (track-typed) items, in playlist order. -/
def includedDurations (items : List PlaylistItem) : List ℤ :=
  items.filterMap fun it =>
    match it.track with
    | some (.track t) => some t.duration
    | _ => none

/-- Total duration of one bucket's entries. -/
def entriesTotal (g : Group) : ℤ := (g.2.map fun e => e.2.duration).sum

/-- The entries held by the bucket with key `k` (empty when there is no such
bucket). -/
def entriesFor (gs : List Group) (k : Option String) : List Entry :=
  ((gs.find? fun g => decide (g.1 = k)).map Prod.snd).getD []

/-- The included entries of the playlist whose `added_by` is `k`, in playlist
order. -/
def bucketOf (k : Option String) (items : List PlaylistItem) : List Entry :=
  items.filterMap fun it =>
    match it.track with
    | some (.track t) => if it.added_by = k then some (it.added_at, t) else none
    | _ => none

/-- Short-hand used by the concrete test inputs below: a playlist item that
is a plain track. -/
def trackItem (addedAt : Option ℤ) (addedBy : Option String) (nm : String)
    (d : ℤ) : PlaylistItem :=
  { added_at := addedAt, added_by := addedBy
    track := some (.track { name := nm, duration := d }) }

/-- Strict version of `pairLE`, used to show that sorted outputs agree when
no two buckets have equal total durations. -/
def pairLT (a b : UserInfo × List TrackInfo) : Prop :=
  a.1.total_duration < b.1.total_duration

instance : IsAntisymm (UserInfo × List TrackInfo) pairLT :=
  ⟨fun _ _ h1 h2 => absurd (lt_trans h1 h2) (lt_irrefl _)⟩

/-- Test input: two contributors with equal total durations. -/
def tiePlaylist : Playlist :=
  { name := "p"
    items := [trackItem (some 0) (some "a") "t1" 100,
              trackItem (some 0) (some "b") "t2" 100] }

/-- Test input: two contributors with distinct total durations. -/
def twoUserPlaylist : Playlist :=
  { name := "p"
    items := [trackItem (some 0) (some "a") "t1" 100,
              trackItem (some 0) (some "b") "t2" 200] }

/-- Test input: one zero-duration track. -/
def zeroPlaylist : Playlist :=
  { name := "z", items := [trackItem (some 0) (some "a") "t" 0] }

/-- Test input: contributor totals 300s, 100s, 200s (in milliseconds). -/
def sortPlaylist : Playlist :=
  { name := "s"
    items := [trackItem (some 0) (some "a") "a1" 300000,
              trackItem (some 0) (some "b") "b1" 100000,
              trackItem (some 0) (some "c") "c1" 200000] }

/-- Test input: one contributor whose track durations are 50s, 10s, 30s. -/
def trackOrderPlaylist : Playlist :=
  { name := "t"
    items := [trackItem (some 0) (some "d") "d1" 50000,
              trackItem (some 0) (some "d") "d2" 10000,
              trackItem (some 0) (some "d") "d3" 30000] }

/-- Test input: one track with no `added_by`, one with a known contributor. -/
def unknownPlaylist : Playlist :=
  { name := "u"
    items := [trackItem (some 0) none "t1" 100,
              trackItem (some 0) (some "a") "t2" 300] }

/-! ### Unfolding lemmas -/

theorem processGroup_def (names : String → Option String) (colorOf : String → RGB8)
    (now total : ℤ) (g : Group) :
    processGroup names colorOf now total g =
      ({ name := (g.1.bind names).getD "Unknow"
         relative_size := F64.div
           (.val ((List.insertionSort trackLE
             (g.2.map (mkTrackInfo (colorOf (g.1.getD "")) now total))).map
               TrackInfo.duration).sum) (.val total)
         total_duration := ((List.insertionSort trackLE
           (g.2.map (mkTrackInfo (colorOf (g.1.getD "")) now total))).map
             TrackInfo.duration).sum
         amount_of_tracks := (List.insertionSort trackLE
           (g.2.map (mkTrackInfo (colorOf (g.1.getD "")) now total))).length
         color := colorOf (g.1.getD "") },
       List.insertionSort trackLE (g.2.map (mkTrackInfo (colorOf (g.1.getD "")) now total))) :=
  rfl

theorem buildPlaylistInfo_def (names : String → Option String) (colorOf : String → RGB8)
    (now : ℤ) (p : Playlist) (gs : List Group) :
    buildPlaylistInfo names colorOf now p gs =
      { name := p.name
        total_duration := totalDuration p.items
        tracks := ((List.insertionSort pairLE
          (gs.map (processGroup names colorOf now (totalDuration p.items)))).map
            Prod.snd).flatten
        users := (List.insertionSort pairLE
          (gs.map (processGroup names colorOf now (totalDuration p.items)))).map
            Prod.fst } :=
  rfl

/-! ### The total-duration fold -/

theorem totalDuration_eq_sum (items : List PlaylistItem) :
    totalDuration items = (includedDurations items).sum := by
  suffices h : ∀ (l : List PlaylistItem) (acc : ℤ),
      l.foldl (fun acc it => match it.track with
        | some (.track t) => acc + t.duration
        | _ => acc) acc = acc + (includedDurations l).sum by
    simpa [totalDuration] using h items 0
  intro l
  induction l with
  | nil => intro acc; simp [includedDurations]
  | cons it rest ih =>
    intro acc
    rcases hit : it.track with _ | pi
    · simp only [List.foldl_cons, hit]
      rw [ih]
      simp [includedDurations, List.filterMap_cons, hit]
    · cases pi with
      | track t =>
        simp only [List.foldl_cons, hit]
        rw [ih]
        simp [includedDurations, List.filterMap_cons, hit]
        ring
      | episode =>
        simp only [List.foldl_cons, hit]
        rw [ih]
        simp [includedDurations, List.filterMap_cons, hit]

/-! ### The grouping fold -/

theorem groupsTotal_insertEntry (gs : List Group) (k : Option String) (e : Entry) :
    ((insertEntry gs k e).map entriesTotal).sum = (gs.map entriesTotal).sum + e.2.duration := by
  induction gs with
  | nil => simp [insertEntry, entriesTotal]
  | cons g rest ih =>
    by_cases h : g.1 = k
    · rw [insertEntry, if_pos h]
      simp [entriesTotal]
      ring
    · rw [insertEntry, if_neg h]
      simp [ih]
      ring

theorem groupTracks_total (items : List PlaylistItem) :
    ((groupTracks items).map entriesTotal).sum = totalDuration items := by
  rw [totalDuration_eq_sum]
  suffices h : ∀ (l : List PlaylistItem) (gs : List Group),
      (((l.foldl groupStep gs).map entriesTotal).sum) =
        (gs.map entriesTotal).sum + (includedDurations l).sum by
    simpa [groupTracks] using h items []
  intro l
  induction l with
  | nil => intro gs; simp [includedDurations]
  | cons it rest ih =>
    intro gs
    rw [List.foldl_cons]
    rcases hit : it.track with _ | pi
    · rw [show groupStep gs it = gs from by simp [groupStep, hit], ih]
      simp [includedDurations, List.filterMap_cons, hit]
    · cases pi with
      | track t =>
        rw [show groupStep gs it = insertEntry gs it.added_by (it.added_at, t) from by
          simp [groupStep, hit], ih, groupsTotal_insertEntry]
        simp [includedDurations, List.filterMap_cons, hit]
        ring
      | episode =>
        rw [show groupStep gs it = gs from by simp [groupStep, hit], ih]
        simp [includedDurations, List.filterMap_cons, hit]

theorem mem_insertEntry {gs : List Group} {k : Option String} {e : Entry} {g : Group}
    (hg : g ∈ insertEntry gs k e) {x : Entry} (hx : x ∈ g.2) :
    (∃ g0 ∈ gs, g0.1 = g.1 ∧ x ∈ g0.2) ∨ (g.1 = k ∧ x = e) := by
  induction gs with
  | nil =>
    simp only [insertEntry, List.mem_singleton] at hg
    subst hg
    simp only [List.mem_singleton] at hx
    exact Or.inr ⟨rfl, hx⟩
  | cons a rest ih =>
    rw [insertEntry] at hg
    by_cases h : a.1 = k
    · rw [if_pos h] at hg
      rcases List.mem_cons.mp hg with h1 | h1
      · subst h1
        rcases List.mem_append.mp hx with h2 | h2
        · exact Or.inl ⟨a, List.mem_cons_self a rest, rfl, h2⟩
        · simp only [List.mem_singleton] at h2
          exact Or.inr ⟨h, h2⟩
      · exact Or.inl ⟨g, List.mem_cons_of_mem a h1, rfl, hx⟩
    · rw [if_neg h] at hg
      rcases List.mem_cons.mp hg with h1 | h1
      · subst h1
        exact Or.inl ⟨g, List.mem_cons_self g rest, rfl, hx⟩
      · rcases ih h1 with ⟨g0, hg0, hk, hm⟩ | h2
        · exact Or.inl ⟨g0, List.mem_cons_of_mem a hg0, hk, hm⟩
        · exact Or.inr h2

theorem mem_groupTracks {items : List PlaylistItem} {g : Group} (hg : g ∈ groupTracks items)
    {e : Entry} (he : e ∈ g.2) :
    ∃ it ∈ items, it.added_by = g.1 ∧ it.added_at = e.1 ∧
      it.track = some (.track e.2) := by
  suffices h : ∀ (l : List PlaylistItem) (gs : List Group) (g : Group) (e : Entry),
      g ∈ l.foldl groupStep gs → e ∈ g.2 →
      (∃ g0 ∈ gs, g0.1 = g.1 ∧ e ∈ g0.2) ∨
        ∃ it ∈ l, it.added_by = g.1 ∧ it.added_at = e.1 ∧
          it.track = some (.track e.2) by
    rcases h items [] g e hg he with ⟨g0, hg0, _⟩ | h2
    · simp at hg0
    · exact h2
  intro l
  induction l with
  | nil => intro gs g e hg he; exact Or.inl ⟨g, hg, rfl, he⟩
  | cons it rest ih =>
    intro gs g e hg he
    rw [List.foldl_cons] at hg
    rcases hit : it.track with _ | pi
    · rw [show groupStep gs it = gs from by simp [groupStep, hit]] at hg
      rcases ih gs g e hg he with h1 | h2
      · exact Or.inl h1
      · rcases h2 with ⟨it2, hit2, hp⟩
        exact Or.inr ⟨it2, List.mem_cons_of_mem it hit2, hp⟩
    · cases pi with
      | track t =>
        rw [show groupStep gs it = insertEntry gs it.added_by (it.added_at, t) from by
          simp [groupStep, hit]] at hg
        rcases ih _ g e hg he with ⟨g0, hg0, hk, hm⟩ | h2
        · rcases mem_insertEntry hg0 hm with ⟨g1, hg1, hk1, hm1⟩ | ⟨hk0, he0⟩
          · exact Or.inl ⟨g1, hg1, hk1.trans hk, hm1⟩
          · refine Or.inr ⟨it, List.mem_cons_self it rest, ?_, ?_, ?_⟩
            · rw [← hk, ← hk0]
            · rw [he0]
            · rw [hit, he0]
        · rcases h2 with ⟨it2, hit2, hp⟩
          exact Or.inr ⟨it2, List.mem_cons_of_mem it hit2, hp⟩
      | episode =>
        rw [show groupStep gs it = gs from by simp [groupStep, hit]] at hg
        rcases ih gs g e hg he with h1 | h2
        · exact Or.inl h1
        · rcases h2 with ⟨it2, hit2, hp⟩
          exact Or.inr ⟨it2, List.mem_cons_of_mem it hit2, hp⟩

theorem keys_insertEntry (gs : List Group) (k : Option String) (e : Entry) :
    (insertEntry gs k e).map Prod.fst =
      if k ∈ gs.map Prod.fst then gs.map Prod.fst else gs.map Prod.fst ++ [k] := by
  induction gs with
  | nil => simp [insertEntry]
  | cons g rest ih =>
    by_cases h : g.1 = k
    · rw [insertEntry, if_pos h]
      simp [h]
    · rw [insertEntry, if_neg h]
      simp only [List.map_cons, ih]
      have hne : ¬ k = g.1 := fun hc => h hc.symm
      by_cases h2 : k ∈ rest.map Prod.fst
      · rw [if_pos h2, if_pos (by simp [List.mem_cons, h2])]
      · rw [if_neg h2, if_neg (by simp [List.mem_cons, h2, hne])]
        simp

theorem keys_nodup_insertEntry {gs : List Group} (h : (gs.map Prod.fst).Nodup)
    (k : Option String) (e : Entry) : ((insertEntry gs k e).map Prod.fst).Nodup := by
  rw [keys_insertEntry]
  by_cases h2 : k ∈ gs.map Prod.fst
  · simpa [h2] using h
  · rw [if_neg h2]
    simp only [List.nodup_append, List.nodup_singleton]
    exact ⟨h, trivial, by simpa [List.disjoint_singleton] using h2⟩

theorem groupTracks_keys_nodup (items : List PlaylistItem) :
    ((groupTracks items).map Prod.fst).Nodup := by
  suffices h : ∀ (l : List PlaylistItem) (gs : List Group), (gs.map Prod.fst).Nodup →
      ((l.foldl groupStep gs).map Prod.fst).Nodup by
    exact h items [] (by simp)
  intro l
  induction l with
  | nil => intro gs h; simpa using h
  | cons it rest ih =>
    intro gs h
    rw [List.foldl_cons]
    apply ih
    rcases hit : it.track with _ | pi
    · rwa [show groupStep gs it = gs from by simp [groupStep, hit]]
    · cases pi with
      | track t =>
        rw [show groupStep gs it = insertEntry gs it.added_by (it.added_at, t) from by
          simp [groupStep, hit]]
        exact keys_nodup_insertEntry h _ _
      | episode =>
        rwa [show groupStep gs it = gs from by simp [groupStep, hit]]

theorem entriesFor_nil (k : Option String) : entriesFor [] k = [] := rfl

theorem entriesFor_insertEntry (gs : List Group) (k j : Option String) (e : Entry) :
    entriesFor (insertEntry gs k e) j =
      if j = k then entriesFor gs j ++ [e] else entriesFor gs j := by
  induction gs with
  | nil =>
    by_cases h : j = k
    · subst h
      simp [insertEntry, entriesFor, List.find?]
    · simp [insertEntry, entriesFor, List.find?,
        show ¬ k = j from fun hc => h hc.symm, h]
  | cons g rest ih =>
    rw [insertEntry]
    by_cases h : g.1 = k
    · rw [if_pos h]
      by_cases h2 : j = k
      · have hg : g.1 = j := h.trans h2.symm
        simp [entriesFor, List.find?, hg, h2]
      · have hg : ¬ g.1 = j := fun hc => h2 ((hc.symm.trans h).symm ▸ rfl)
        simp [entriesFor, List.find?, hg, h2]
    · rw [if_neg h]
      by_cases h2 : g.1 = j
      · have hj : ¬ j = k := fun hc => h (h2.trans hc)
        simp [entriesFor, List.find?, h2, hj]
      · simp only [entriesFor, List.find?, show (decide (g.1 = j)) = false from by
          simpa using h2]
        exact ih

theorem groupTracks_entriesFor (items : List PlaylistItem) (k : Option String) :
    entriesFor (groupTracks items) k = bucketOf k items := by
  suffices h : ∀ (l : List PlaylistItem) (gs : List Group),
      entriesFor (l.foldl groupStep gs) k = entriesFor gs k ++ bucketOf k l by
    simpa [groupTracks, entriesFor_nil] using h items []
  intro l
  induction l with
  | nil =>
    intro gs
    simp [bucketOf]
  | cons it rest ih =>
    intro gs
    rw [List.foldl_cons]
    rcases hit : it.track with _ | pi
    · rw [show groupStep gs it = gs from by simp [groupStep, hit], ih]
      simp [bucketOf, List.filterMap_cons, hit]
    · cases pi with
      | track t =>
        rw [show groupStep gs it = insertEntry gs it.added_by (it.added_at, t) from by
          simp [groupStep, hit], ih, entriesFor_insertEntry]
        by_cases hk : it.added_by = k
        · rw [if_pos hk.symm]
          simp [bucketOf, List.filterMap_cons, hit, hk]
        · rw [if_neg (fun hc => hk hc.symm)]
          simp [bucketOf, List.filterMap_cons, hit, hk]
      | episode =>
        rw [show groupStep gs it = gs from by simp [groupStep, hit], ih]
        simp [bucketOf, List.filterMap_cons, hit]

/-! ### Properties of `processGroup` -/

theorem processGroup_snd_perm (names : String → Option String) (colorOf : String → RGB8)
    (now total : ℤ) (g : Group) :
    (processGroup names colorOf now total g).2.Perm
      (g.2.map (mkTrackInfo (colorOf (g.1.getD "")) now total)) := by
  rw [processGroup_def]
  exact List.perm_insertionSort trackLE _

theorem processGroup_durations (names : String → Option String) (colorOf : String → RGB8)
    (now total : ℤ) (g : Group) :
    ((processGroup names colorOf now total g).2.map TrackInfo.duration).sum =
      entriesTotal g := by
  rw [((processGroup_snd_perm names colorOf now total g).map TrackInfo.duration).sum_eq,
    List.map_map]
  rfl

theorem processGroup_total (names : String → Option String) (colorOf : String → RGB8)
    (now total : ℤ) (g : Group) :
    (processGroup names colorOf now total g).1.total_duration = entriesTotal g := by
  have h := processGroup_durations names colorOf now total g
  rw [processGroup_def] at h ⊢
  exact h

theorem processGroup_amount (names : String → Option String) (colorOf : String → RGB8)
    (now total : ℤ) (g : Group) :
    (processGroup names colorOf now total g).1.amount_of_tracks = g.2.length := by
  rw [processGroup_def]
  simp [List.length_insertionSort]

theorem processGroup_amount_snd (names : String → Option String) (colorOf : String → RGB8)
    (now total : ℤ) (g : Group) :
    (processGroup names colorOf now total g).1.amount_of_tracks =
      (processGroup names colorOf now total g).2.length := by
  rw [processGroup_def]

theorem mem_processGroup_snd {names : String → Option String} {colorOf : String → RGB8}
    {now total : ℤ} {g : Group} {tr : TrackInfo}
    (h : tr ∈ (processGroup names colorOf now total g).2) :
    ∃ e ∈ g.2, tr = mkTrackInfo (colorOf (g.1.getD "")) now total e := by
  have h1 := (processGroup_snd_perm names colorOf now total g).mem_iff.mp h
  rcases List.mem_map.mp h1 with ⟨e, he, hq⟩
  exact ⟨e, he, hq.symm⟩

theorem processGroup_snd_sorted (names : String → Option String) (colorOf : String → RGB8)
    (now total : ℤ) (g : Group) :
    (processGroup names colorOf now total g).2.Sorted trackLE := by
  rw [processGroup_def]
  exact List.sorted_insertionSort trackLE _

/-! ### Membership in the engine output -/

theorem mem_sortedData {names : String → Option String} {colorOf : String → RGB8}
    {now total : ℤ} {gs : List Group} {x : UserInfo × List TrackInfo}
    (hx : x ∈ List.insertionSort pairLE (gs.map (processGroup names colorOf now total))) :
    ∃ g ∈ gs, x = processGroup names colorOf now total g := by
  have h1 := (List.perm_insertionSort pairLE
    (gs.map (processGroup names colorOf now total))).mem_iff.mp hx
  rcases List.mem_map.mp h1 with ⟨g, hg, hq⟩
  exact ⟨g, hg, hq.symm⟩

theorem mem_tracks {names : String → Option String} {colorOf : String → RGB8}
    {now : ℤ} {p : Playlist} {gs : List Group} {tr : TrackInfo}
    (h : tr ∈ (buildPlaylistInfo names colorOf now p gs).tracks) :
    ∃ g ∈ gs, ∃ e ∈ g.2,
      tr = mkTrackInfo (colorOf (g.1.getD "")) now (totalDuration p.items) e := by
  rw [buildPlaylistInfo_def] at h
  rcases List.mem_flatten.mp h with ⟨r, hr, htr⟩
  rcases List.mem_map.mp hr with ⟨x, hx, hq⟩
  rcases mem_sortedData hx with ⟨g, hg, hxg⟩
  subst hxg
  rw [← hq] at htr
  rcases mem_processGroup_snd htr with ⟨e, he, hte⟩
  exact ⟨g, hg, e, he, hte⟩

theorem mem_users {names : String → Option String} {colorOf : String → RGB8}
    {now : ℤ} {p : Playlist} {gs : List Group} {u : UserInfo}
    (h : u ∈ (buildPlaylistInfo names colorOf now p gs).users) :
    ∃ g ∈ gs, u = (processGroup names colorOf now (totalDuration p.items) g).1 := by
  rw [buildPlaylistInfo_def] at h
  rcases List.mem_map.mp h with ⟨x, hx, hq⟩
  rcases mem_sortedData hx with ⟨g, hg, hxg⟩
  subst hxg
  exact ⟨g, hg, hq.symm⟩

/-! ### `F64` and age-factor lemmas -/

theorem F64.div_val {a b : ℚ} (hb : b ≠ 0) :
    F64.div (.val a) (.val b) = .val (a / b) := by
  simp [F64.div, hb]

theorem ageF64_eq_spec (now : ℤ) (a : Option ℤ) :
    ageF64 now a = F64.val (specAgeFactor now a) := by
  have h200 : ((200 : ℚ)) ≠ 0 := by norm_num
  cases a with
  | none => simp [ageF64, ageDays, specAgeFactor, F64.div, F64.clamp, sub_self]
  | some t => simp [ageF64, ageDays, specAgeFactor, F64.div, F64.clamp, h200]

theorem ageF64_daysAgo (now d : ℤ) :
    ageF64 now (some (now - d * 86400)) = F64.val (max 0 (min 1 ((d : ℚ) / 200))) := by
  have h1 : now - (now - d * 86400) = d * 86400 := by ring
  have h2 : Int.tdiv (d * 86400) 86400 = d := Int.mul_tdiv_cancel d (by norm_num)
  simp [ageF64, ageDays, F64.div, F64.clamp, h1, h2]

theorem ageF64_val (now : ℤ) (a : Option ℤ) :
    ageF64 now a = F64.val (max 0 (min 1 ((ageDays now a : ℚ) / 200))) := by
  simp [ageF64, F64.div, F64.clamp, (by norm_num : ((200 : ℚ)) ≠ 0)]

/-- The total duration of one bucket's sorted track list, restated on the
raw sort expression. -/
theorem sorted_tracks_durations (c : RGB8) (now total : ℤ) (es : List Entry) :
    ((List.insertionSort trackLE (es.map (mkTrackInfo c now total))).map
      TrackInfo.duration).sum = (es.map fun e => e.2.duration).sum := by
  rw [((List.perm_insertionSort trackLE (es.map (mkTrackInfo c now total))).map
    TrackInfo.duration).sum_eq, List.map_map]
  rfl

theorem processGroup_relsize_def (names : String → Option String) (colorOf : String → RGB8)
    (now total : ℤ) (g : Group) :
    (processGroup names colorOf now total g).1.relative_size =
      F64.div (.val (((List.insertionSort trackLE
        (g.2.map (mkTrackInfo (colorOf (g.1.getD "")) now total))).map
          TrackInfo.duration).sum : ℚ)) (.val (total : ℚ)) := rfl

theorem processGroup_relsize (names : String → Option String) (colorOf : String → RGB8)
    (now total : ℤ) (g : Group) :
    (processGroup names colorOf now total g).1.relative_size =
      F64.div (.val ((entriesTotal g : ℤ) : ℚ)) (.val ((total : ℤ) : ℚ)) := by
  rw [processGroup_relsize_def, sorted_tracks_durations]
  rfl

/-- A singleton playlist's output, projected to age and staleness. -/
theorem tracks_age_singleton (names : String → Option String) (colorOf : String → RGB8)
    (now : ℤ) (nm tn : String) (a : Option ℤ) (b : Option String) (d : ℤ) :
    (dataFn names colorOf now { name := nm, items := [trackItem a b tn d] }).tracks.map
      (fun tr => (tr.age, isStale tr)) =
      [(ageF64 now a, F64.blt (.val (99 / 100)) (ageF64 now a))] := rfl

/-! ### Determinism up to bucket order -/

theorem sorted_pairLT_of_nodup {l : List (UserInfo × List TrackInfo)}
    (hs : l.Sorted pairLE) (hn : (l.map fun x => x.1.total_duration).Nodup) :
    l.Sorted pairLT := by
  have hne : l.Pairwise fun a b => a.1.total_duration ≠ b.1.total_duration := by
    rw [List.Nodup, List.pairwise_map] at hn
    exact hn
  exact (hs.and hne).imp fun h => lt_of_le_of_ne h.1 h.2

/-- The sorted bucket data is independent of the bucket enumeration order
whenever the bucket totals are pairwise distinct. -/
theorem sortedData_order_independent (names : String → Option String)
    (colorOf : String → RGB8) (now : ℤ) (p : Playlist) (g₁ g₂ : List Group)
    (h₁ : g₁.Perm (groupTracks p.items)) (h₂ : g₂.Perm (groupTracks p.items))
    (hd : ((groupTracks p.items).map entriesTotal).Nodup) :
    List.insertionSort pairLE
        (g₁.map (processGroup names colorOf now (totalDuration p.items))) =
      List.insertionSort pairLE
        (g₂.map (processGroup names colorOf now (totalDuration p.items))) := by
  have key : ∀ g : List Group, g.Perm (groupTracks p.items) →
      (List.insertionSort pairLE
          (g.map (processGroup names colorOf now (totalDuration p.items)))).Sorted pairLT ∧
      (List.insertionSort pairLE
          (g.map (processGroup names colorOf now (totalDuration p.items)))).Perm
        ((groupTracks p.items).map (processGroup names colorOf now (totalDuration p.items))) := by
    intro g hg
    refine ⟨?_, (List.perm_insertionSort pairLE _).trans (hg.map _)⟩
    apply sorted_pairLT_of_nodup (List.sorted_insertionSort pairLE _)
    have hperm : ((List.insertionSort pairLE
          (g.map (processGroup names colorOf now (totalDuration p.items)))).map
          fun x => x.1.total_duration).Perm ((groupTracks p.items).map entriesTotal) := by
      refine ((List.perm_insertionSort pairLE _).map _).trans ?_
      rw [List.map_map]
      rw [show ((fun x : UserInfo × List TrackInfo => x.1.total_duration) ∘
          processGroup names colorOf now (totalDuration p.items)) = entriesTotal from
        funext fun g0 => processGroup_total names colorOf now (totalDuration p.items) g0]
      exact hg.map entriesTotal
    exact hperm.symm.nodup hd
  have e1 := key g₁ h₁
  have e2 := key g₂ h₂
  exact List.eq_of_perm_of_sorted (e1.2.trans e2.2.symm) e1.1 e2.1

/-! ### Conservation helpers -/

theorem buildPlaylistInfo_tracks_sum (names : String → Option String)
    (colorOf : String → RGB8) (now : ℤ) (p : Playlist) (gs : List Group) :
    ((buildPlaylistInfo names colorOf now p gs).tracks.map TrackInfo.duration).sum =
      (gs.map entriesTotal).sum := by
  rw [buildPlaylistInfo_def]
  simp only [List.map_flatten, List.sum_flatten, List.map_map]
  rw [((List.perm_insertionSort pairLE
    (gs.map (processGroup names colorOf now (totalDuration p.items)))).map
      (List.sum ∘ List.map TrackInfo.duration ∘ Prod.snd)).sum_eq]
  rw [List.map_map]
  exact congrArg List.sum (List.map_congr_left fun g _ =>
    processGroup_durations names colorOf now (totalDuration p.items) g)

theorem buildPlaylistInfo_users_sum (names : String → Option String)
    (colorOf : String → RGB8) (now : ℤ) (p : Playlist) (gs : List Group) :
    ((buildPlaylistInfo names colorOf now p gs).users.map UserInfo.total_duration).sum =
      (gs.map entriesTotal).sum := by
  rw [buildPlaylistInfo_def]
  simp only [List.map_map]
  rw [((List.perm_insertionSort pairLE
    (gs.map (processGroup names colorOf now (totalDuration p.items)))).map
      (UserInfo.total_duration ∘ Prod.fst)).sum_eq]
  rw [List.map_map]
  exact congrArg List.sum (List.map_congr_left fun g _ =>
    processGroup_total names colorOf now (totalDuration p.items) g)

/-! ### Claim theorems -/

/-- C2 (amended): the engine output is a deterministic function of the
playlist, the name map, `now`, and the order in which the `HashMap` yields
its buckets; and whenever the contributor buckets have pairwise-distinct
total durations, the output does not depend on the bucket order at all, so
two runs on identical inputs agree.  (As stated, the claim fails: with two
buckets of equal total duration the output depends on the bucket order —
see the counterexample.) -/
theorem engine_order_independent (names : String → Option String)
    (colorOf : String → RGB8) (now : ℤ) (p : Playlist) (g₁ g₂ : List Group)
    (h₁ : g₁.Perm (groupTracks p.items)) (h₂ : g₂.Perm (groupTracks p.items))
    (hd : ((groupTracks p.items).map entriesTotal).Nodup) :
    buildPlaylistInfo names colorOf now p g₁ = buildPlaylistInfo names colorOf now p g₂ := by
  rw [buildPlaylistInfo_def, buildPlaylistInfo_def,
    sortedData_order_independent names colorOf now p g₁ g₂ h₁ h₂ hd]

/-- Witness for `engine_order_independent`: a concrete two-contributor
playlist with distinct totals, enumerated in two different bucket orders. -/
theorem engine_order_independent_witness :
    buildPlaylistInfo (fun s => some s) (fun _ => (0, 0, 0)) 0 twoUserPlaylist
        (groupTracks twoUserPlaylist.items) =
      buildPlaylistInfo (fun s => some s) (fun _ => (0, 0, 0)) 0 twoUserPlaylist
        ((groupTracks twoUserPlaylist.items).reverse) :=
  engine_order_independent (fun s => some s) (fun _ => (0, 0, 0)) 0 twoUserPlaylist
    _ _ (List.Perm.refl _) (List.reverse_perm _) (by decide)

/-- C3: in every engine output the `UserInfo` track counts sum to the length
of the `TrackInfo` sequence, and the `TrackInfo` sequence is exactly the
concatenation, in `UserInfo` order, of one contiguous run per `UserInfo`
entry (the run paired with a `UserInfo` has that user's track count and
total duration). -/
theorem engine_partition (names : String → Option String) (colorOf : String → RGB8)
    (now : ℤ) (p : Playlist) (gs : List Group) :
    (((buildPlaylistInfo names colorOf now p gs).users.map UserInfo.amount_of_tracks).sum =
        (buildPlaylistInfo names colorOf now p gs).tracks.length) ∧
    ∃ runs : List (List TrackInfo),
      (buildPlaylistInfo names colorOf now p gs).tracks = runs.flatten ∧
      runs.length = (buildPlaylistInfo names colorOf now p gs).users.length ∧
      ∀ pr ∈ (buildPlaylistInfo names colorOf now p gs).users.zip runs,
        pr.1.amount_of_tracks = pr.2.length ∧
        pr.1.total_duration = (pr.2.map TrackInfo.duration).sum := by
  have hfact : ∀ x ∈ List.insertionSort pairLE
      (gs.map (processGroup names colorOf now (totalDuration p.items))),
      x.1.amount_of_tracks = x.2.length ∧
      x.1.total_duration = (x.2.map TrackInfo.duration).sum := by
    intro x hx
    rcases mem_sortedData hx with ⟨g, hg, rfl⟩
    refine ⟨processGroup_amount_snd names colorOf now (totalDuration p.items) g, ?_⟩
    rw [processGroup_durations, processGroup_total]
  rw [buildPlaylistInfo_def]
  constructor
  · simp only [List.map_map, List.length_flatten]
    exact congrArg List.sum (List.map_congr_left fun x hx => (hfact x hx).1)
  · refine ⟨(List.insertionSort pairLE
      (gs.map (processGroup names colorOf now (totalDuration p.items)))).map Prod.snd,
      rfl, by simp, ?_⟩
    intro pr hpr
    rw [← List.unzip_fst, ← List.unzip_snd, List.zip_unzip] at hpr
    exact hfact pr hpr

/-- C5: in every engine output the `UserInfo` sequence is sorted by ascending
`total_duration` and each contributor's run of `TrackInfo` entries is sorted
by ascending duration; concretely, contributor totals 300s, 100s, 200s come
out as 100s, 200s, 300s and track durations 50s, 10s, 30s come out as 10s,
30s, 50s. -/
theorem engine_sort_order (names : String → Option String) (colorOf : String → RGB8)
    (now : ℤ) (p : Playlist) (gs : List Group) :
    ((buildPlaylistInfo names colorOf now p gs).users.Sorted
        fun a b => a.total_duration ≤ b.total_duration) ∧
    (∃ runs : List (List TrackInfo),
        (buildPlaylistInfo names colorOf now p gs).tracks = runs.flatten ∧
        runs.length = (buildPlaylistInfo names colorOf now p gs).users.length ∧
        ∀ r ∈ runs, r.Sorted fun a b => a.duration ≤ b.duration) ∧
    ((dataFn (fun s => some s) (fun _ => (0, 0, 0)) 0 sortPlaylist).users.map
        UserInfo.total_duration = [100000, 200000, 300000]) ∧
    ((dataFn (fun s => some s) (fun _ => (0, 0, 0)) 0 trackOrderPlaylist).tracks.map
        TrackInfo.duration = [10000, 30000, 50000]) := by
  refine ⟨?_, ?_, by decide, by decide⟩
  · rw [buildPlaylistInfo_def]
    exact List.pairwise_map.mpr (List.sorted_insertionSort pairLE _)
  · rw [buildPlaylistInfo_def]
    refine ⟨(List.insertionSort pairLE
      (gs.map (processGroup names colorOf now (totalDuration p.items)))).map Prod.snd,
      rfl, by simp, ?_⟩
    intro r hr
    rcases List.mem_map.mp hr with ⟨x, hx, hq⟩
    rcases mem_sortedData hx with ⟨g, hg, hxg⟩
    subst hxg
    rw [← hq]
    exact processGroup_snd_sorted names colorOf now (totalDuration p.items) g

/-- C4: for every input whose total duration is positive, the output track
durations sum exactly to `total_duration`, which equals the sum of the
per-user total durations (exact integer time arithmetic), and the per-track
relative sizes are finite rationals summing exactly to 1. -/
theorem engine_conservation (names : String → Option String) (colorOf : String → RGB8)
    (now : ℤ) (p : Playlist) (h : 0 < totalDuration p.items) :
    ((dataFn names colorOf now p).tracks.map TrackInfo.duration).sum =
        (dataFn names colorOf now p).total_duration ∧
    (dataFn names colorOf now p).total_duration =
        ((dataFn names colorOf now p).users.map UserInfo.total_duration).sum ∧
    ∃ qs : List ℚ,
      (dataFn names colorOf now p).tracks.map TrackInfo.relative_size = qs.map F64.val ∧
      qs.sum = 1 := by
  have htot : (dataFn names colorOf now p).total_duration = totalDuration p.items := rfl
  have h1 : ((dataFn names colorOf now p).tracks.map TrackInfo.duration).sum =
      totalDuration p.items := by
    rw [show dataFn names colorOf now p =
        buildPlaylistInfo names colorOf now p (groupTracks p.items) from rfl,
      buildPlaylistInfo_tracks_sum, groupTracks_total]
  have h2 : ((dataFn names colorOf now p).users.map UserInfo.total_duration).sum =
      totalDuration p.items := by
    rw [show dataFn names colorOf now p =
        buildPlaylistInfo names colorOf now p (groupTracks p.items) from rfl,
      buildPlaylistInfo_users_sum, groupTracks_total]
  have hT0 : ((totalDuration p.items : ℤ) : ℚ) ≠ 0 := by
    exact_mod_cast ne_of_gt h
  refine ⟨by rw [h1, htot], by rw [htot, h2], ?_⟩
  refine ⟨(dataFn names colorOf now p).tracks.map
      (fun tr => (tr.duration : ℚ) / ((totalDuration p.items : ℤ) : ℚ)), ?_, ?_⟩
  · rw [List.map_map]
    refine List.map_congr_left fun tr htr => ?_
    rcases mem_tracks htr with ⟨g, hg, e, he, hte⟩
    subst hte
    show F64.div (.val ((e.2.duration : ℤ) : ℚ)) (.val ((totalDuration p.items : ℤ) : ℚ)) = _
    rw [F64.div_val hT0]
    rfl
  · simp only [div_eq_mul_inv]
    rw [List.sum_map_mul_right]
    rw [show ((dataFn names colorOf now p).tracks.map fun tr => ((tr.duration : ℤ) : ℚ)) =
        (((dataFn names colorOf now p).tracks.map TrackInfo.duration).map
          fun z : ℤ => (z : ℚ)) from by rw [List.map_map]; rfl]
    rw [← Int.cast_list_sum, h1, mul_inv_cancel₀ hT0]

/-- Witness for `engine_conservation`: the two-contributor test playlist has
positive total duration. -/
theorem engine_conservation_witness :
    ((dataFn (fun s => some s) (fun _ => (0, 0, 0)) 0 twoUserPlaylist).tracks.map
        TrackInfo.duration).sum =
      (dataFn (fun s => some s) (fun _ => (0, 0, 0)) 0 twoUserPlaylist).total_duration ∧
    (dataFn (fun s => some s) (fun _ => (0, 0, 0)) 0 twoUserPlaylist).total_duration =
      ((dataFn (fun s => some s) (fun _ => (0, 0, 0)) 0 twoUserPlaylist).users.map
        UserInfo.total_duration).sum ∧
    ∃ qs : List ℚ,
      (dataFn (fun s => some s) (fun _ => (0, 0, 0)) 0 twoUserPlaylist).tracks.map
        TrackInfo.relative_size = qs.map F64.val ∧
      qs.sum = 1 :=
  engine_conservation (fun s => some s) (fun _ => (0, 0, 0)) 0 twoUserPlaylist (by decide)

/-- C2 counterexample: with two contributors of equal total duration, the two
bucket orders (both legitimate `HashMap` iteration orders of the same
grouped data) produce different outputs, so the engine is not a function of
(playlist, names, now) alone. -/
theorem engine_determinism_cex :
    ((groupTracks tiePlaylist.items).reverse).Perm (groupTracks tiePlaylist.items) ∧
    buildPlaylistInfo (fun s => some s) (fun _ => (0, 0, 0)) 0 tiePlaylist
        (groupTracks tiePlaylist.items) ≠
      buildPlaylistInfo (fun s => some s) (fun _ => (0, 0, 0)) 0 tiePlaylist
        ((groupTracks tiePlaylist.items).reverse) :=
  ⟨List.reverse_perm _, by decide⟩

/-- C1 (amended): when every included track has zero duration the engine
produces `total_duration = 0` and does not trap, but every included track's
and every user's `relative_size` is the IEEE NaN produced by the unguarded
division `0.0 / 0.0` — not 0 as the claim states (for the empty playlist
the relative-size statements are vacuous: there are no tracks or users). -/
theorem engine_zero_total_nan (names : String → Option String) (colorOf : String → RGB8)
    (now : ℤ) (p : Playlist)
    (h : ∀ d ∈ includedDurations p.items, d = 0) :
    (dataFn names colorOf now p).total_duration = 0 ∧
    (∀ tr ∈ (dataFn names colorOf now p).tracks, tr.relative_size = F64.nan) ∧
    (∀ u ∈ (dataFn names colorOf now p).users, u.relative_size = F64.nan) := by
  have htot : totalDuration p.items = 0 := by
    rw [totalDuration_eq_sum]
    exact List.sum_eq_zero h
  refine ⟨htot, ?_, ?_⟩
  · intro tr htr
    rcases mem_tracks htr with ⟨g, hg, e, he, hte⟩
    have hd0 : e.2.duration = 0 := by
      rcases mem_groupTracks hg he with ⟨it, hit, _, _, htk⟩
      refine h e.2.duration (List.mem_filterMap.mpr ⟨it, hit, ?_⟩)
      rw [htk]
    subst hte
    show F64.div (.val ((e.2.duration : ℤ) : ℚ)) (.val ((totalDuration p.items : ℤ) : ℚ)) =
      F64.nan
    rw [hd0, htot]
    simp [F64.div]
  · intro u hu
    rcases mem_users hu with ⟨g, hg, hug⟩
    have hgt : entriesTotal g = 0 := by
      apply List.sum_eq_zero
      intro x hx
      rcases List.mem_map.mp hx with ⟨e, he, hxe⟩
      rcases mem_groupTracks hg he with ⟨it, hit, _, _, htk⟩
      rw [← hxe]
      refine h e.2.duration (List.mem_filterMap.mpr ⟨it, hit, ?_⟩)
      rw [htk]
    rw [hug, processGroup_relsize, hgt, htot]
    simp [F64.div]

/-- Witness for `engine_zero_total_nan`: the one-track zero-duration
playlist satisfies the all-zero hypothesis. -/
theorem engine_zero_total_nan_witness :
    (dataFn (fun s => some s) (fun _ => (0, 0, 0)) 0 zeroPlaylist).total_duration = 0 ∧
    (∀ tr ∈ (dataFn (fun s => some s) (fun _ => (0, 0, 0)) 0 zeroPlaylist).tracks,
      tr.relative_size = F64.nan) ∧
    (∀ u ∈ (dataFn (fun s => some s) (fun _ => (0, 0, 0)) 0 zeroPlaylist).users,
      u.relative_size = F64.nan) :=
  engine_zero_total_nan (fun s => some s) (fun _ => (0, 0, 0)) 0 zeroPlaylist (by decide)

/-- C1 counterexample: on the one-track all-zero-duration playlist the
track's relative size is NaN, not 0. -/
theorem engine_zero_guard_cex :
    ((dataFn (fun s => some s) (fun _ => (0, 0, 0)) 0 zeroPlaylist).tracks.map
        TrackInfo.relative_size = [F64.nan]) ∧ F64.nan ≠ F64.val 0 :=
  ⟨by decide, by decide⟩

/-- C6: the engine's age factor is exactly the spec formula
`clamp(age_in_days / 200, 0, 1)` with `age = now - added_at` and an absent
`added_at` treated as age 0; a track added exactly 200 days before `now`
has age factor 1 and is stale (`> 0.99`), and a track added exactly 100
days before `now` has age factor 1/2 and is not stale. -/
theorem engine_age_staleness :
    (∀ (now : ℤ) (a : Option ℤ), ageF64 now a = F64.val (specAgeFactor now a)) ∧
    (∀ now : ℤ,
      (dataFn (fun _ => none) (fun _ => (0, 0, 0)) now
          { name := "p", items := [trackItem (some (now - 200 * 86400)) none "t" 1000] }).tracks.map
        (fun tr => (tr.age, isStale tr)) = [(F64.val 1, true)]) ∧
    (∀ now : ℤ,
      (dataFn (fun _ => none) (fun _ => (0, 0, 0)) now
          { name := "p", items := [trackItem (some (now - 100 * 86400)) none "t" 1000] }).tracks.map
        (fun tr => (tr.age, isStale tr)) = [(F64.val (1 / 2), false)]) := by
  refine ⟨ageF64_eq_spec, ?_, ?_⟩
  · intro now
    rw [tracks_age_singleton]
    have h1 : ageF64 now (some (now - 200 * 86400)) = F64.val 1 := by
      rw [ageF64_daysAgo]
      norm_num
    rw [h1]
    simp [F64.blt]
    norm_num
  · intro now
    rw [tracks_age_singleton]
    have h1 : ageF64 now (some (now - 100 * 86400)) = F64.val (1 / 2) := by
      rw [ageF64_daysAgo]
      norm_num
    rw [h1]
    simp [F64.blt]
    norm_num

/-- C10: a future add-timestamp (negative age) yields age factor exactly 0,
and every output track's age factor is a rational in [0, 1] — never NaN and
never out of range. -/
theorem engine_age_clamped :
    (∀ now t : ℤ, now < t → ageF64 now (some t) = F64.val 0) ∧
    (∀ (names : String → Option String) (colorOf : String → RGB8) (now : ℤ) (p : Playlist),
      ∀ tr ∈ (dataFn names colorOf now p).tracks,
        ∃ q : ℚ, tr.age = F64.val q ∧ 0 ≤ q ∧ q ≤ 1) := by
  constructor
  · intro now t h
    have hd : ageDays now (some t) ≤ 0 := by
      show Int.tdiv (now - t) 86400 ≤ 0
      rw [show now - t = -(t - now) from by ring, Int.neg_tdiv]
      exact neg_nonpos.mpr (Int.tdiv_nonneg (by omega) (by norm_num))
    rw [ageF64_val]
    congr 1
    have hq : ((ageDays now (some t) : ℤ) : ℚ) / 200 ≤ 0 :=
      div_nonpos_of_nonpos_of_nonneg (by exact_mod_cast hd) (by norm_num)
    rw [min_eq_right (hq.trans (by norm_num : (0 : ℚ) ≤ 1)), max_eq_left hq]
  · intro names colorOf now p tr htr
    rcases mem_tracks htr with ⟨g, hg, e, he, hte⟩
    subst hte
    refine ⟨max 0 (min 1 ((ageDays now e.1 : ℚ) / 200)), ?_, le_max_left _ _,
      max_le (by norm_num) (min_le_left _ _)⟩
    show ageF64 now e.1 = _
    rw [ageF64_val]

/-- Witness for `engine_age_clamped`: a track added one day in the future of
`now = 0` has age factor 0, and the output track of a concrete playlist has
its age factor in [0, 1]. -/
theorem engine_age_clamped_witness :
    ageF64 0 (some 86400) = F64.val 0 ∧
    ∃ q : ℚ,
      (mkTrackInfo (0, 0, 0) 0 1000 (some 0, { name := "t", duration := 1000 })).age =
        F64.val q ∧ 0 ≤ q ∧ q ≤ 1 :=
  ⟨engine_age_clamped.1 0 86400 (by decide),
   engine_age_clamped.2 (fun s => some s) (fun _ => (0, 0, 0)) 0
     { name := "p", items := [trackItem (some 0) (some "a") "t" 1000] }
     (mkTrackInfo (0, 0, 0) 0 1000 (some 0, { name := "t", duration := 1000 }))
     (List.mem_singleton.mpr rfl)⟩

/-- C7 at its failing input: the full output for a playlist with one
anonymous track and one identified track.  The anonymous track is grouped
under the single null bucket, its duration enters `total_duration` and the
relative sizes exactly like the identified one — but the bucket is displayed
as the code's literal "Unknow", not the claim's "Unknown". -/
theorem engine_unknown_bucket_eval :
    ((dataFn (fun s => some s) (fun _ => (0, 0, 0)) 0 unknownPlaylist).users.map
        (fun u => (u.name, u.total_duration, u.amount_of_tracks)) =
      [("Unknow", 100, 1), ("a", 300, 1)]) ∧
    (dataFn (fun s => some s) (fun _ => (0, 0, 0)) 0 unknownPlaylist).total_duration = 400 ∧
    ((dataFn (fun s => some s) (fun _ => (0, 0, 0)) 0 unknownPlaylist).tracks.map
        (fun tr => (tr.name, tr.duration)) = [("t1", 100), ("t2", 300)]) ∧
    ((dataFn (fun s => some s) (fun _ => (0, 0, 0)) 0 unknownPlaylist).tracks.map
        TrackInfo.relative_size =
      [F64.div (.val 100) (.val 400), F64.div (.val 300) (.val 400)]) ∧
    ((dataFn (fun s => some s) (fun _ => (0, 0, 0)) 0 unknownPlaylist).users.map
        UserInfo.relative_size =
      [F64.div (.val 100) (.val 400), F64.div (.val 300) (.val 400)]) ∧
    "Unknow" ≠ "Unknown" :=
  ⟨by decide, by decide, by decide, rfl, rfl, by decide⟩

/-- C8 at its failing input: failed lookups map every id of the input set to
the code's literal "Faild to get user" — not the claim's
"Failed to get user" — and the resolver still covers the whole input set. -/
theorem resolver_fallback_eval :
    resolveNames (fun _ => none) ["u1", "u2"] =
      [("u1", "Faild to get user"), ("u2", "Faild to get user")] ∧
    "Faild to get user" ≠ "Failed to get user" :=
  ⟨rfl, by decide⟩

/-- C9 (amended): only an absent display name falls back to the raw
identifier; a present display name — even the empty string — is used
as-is. -/
theorem resolver_display_name_absent (lookup : String → Option PublicUser)
    (uid : String) (u : PublicUser) (h1 : lookup uid = some u) :
    (u.display_name = none → resolveName lookup uid = (uid, u.id)) ∧
    (∀ s, u.display_name = some s → resolveName lookup uid = (uid, s)) := by
  constructor
  · intro h2
    simp [resolveName, h1, h2]
  · intro s h2
    simp [resolveName, h1, h2]

/-- Witness for `resolver_display_name_absent`: a user with an absent display
name resolves to the raw identifier. -/
theorem resolver_display_name_absent_witness :
    resolveName (fun _ => some { id := "alice", display_name := none }) "alice" =
      ("alice", "alice") :=
  (resolver_display_name_absent (fun _ => some { id := "alice", display_name := none })
    "alice" { id := "alice", display_name := none } rfl).1 rfl

/-- C9 counterexample: a successfully looked-up user with an empty-but-present
display name is rendered as the empty string, not as the raw identifier. -/
theorem resolver_empty_name_cex :
    resolveName (fun _ => some { id := "alice", display_name := some "" }) "alice" =
      ("alice", "") ∧ ("" : String) ≠ "alice" :=
  ⟨rfl, by decide⟩

end CollabPlaylist
